import Mathlib

/-!
Shallow embedding of `src/regex_builder.py` (functions `optimize_regex` and
`build_regex`) together with a small executable semantics for the fragment of
regex syntax those functions emit.  Strings are modelled as `List Char`
(`String` at the API boundary); Python operations are embedded one by one:

* `url.strip()`                      → `pyStrip` (ASCII whitespace)
* `re.sub(rf"https?://{domain}/?", "", u, flags)` → `subAll` (the pattern is a
  literal alternation `https://`+domain or `http://`+domain followed by an
  optional `/`, matched case-insensitively when the `re.IGNORECASE` flag is
  set; `re.sub` removes every non-overlapping occurrence, scanning left to
  right and preferring the longer scheme and the trailing slash, which is
  exactly the greedy behaviour of `https?` and `/?`)
* `s.startswith("/")`                → head check
* `s.replace("/", "\\/")`            → `escSlashes`
* `pattern.split("/")`               → `splitOnSlash`, with the partial
  indexing `[1]` embedded as `List.get? 1` (Python raises `IndexError`
  when the result has but one element, modelled as `none`)
* `collections.defaultdict` insertion-ordered grouping → `insertPat`/`groupPats`
* `p[len(prefix) + 1:]`              → `List.drop (k.length + 1)`
* f-string concatenation             → list append.

Fallible steps return `Option`; `optimize_regex` and `build_regex` return
`none` exactly when the Python code raises.
-/

namespace RegexBuilder

/-- Python ASCII whitespace characters stripped by `str.strip()` (the model is
restricted to ASCII input, which covers every concrete input used below). -/
def isPySpace (c : Char) : Bool :=
  c = ' ' || c = '\t' || c = '\n' || c = '\r' || c = Char.ofNat 11 || c = Char.ofNat 12

/-- Embedding of Python `str.strip()`. -/
def pyStrip (l : List Char) : List Char :=
  ((l.dropWhile isPySpace).reverse.dropWhile isPySpace).reverse

/-- Character comparison, case-insensitive when `ci` is true (ASCII folding,
matching `re.IGNORECASE` on ASCII input). -/
def lcEq (ci : Bool) (a b : Char) : Bool :=
  if ci then a.toLower = b.toLower else a = b

/-- Does `pre` occur at the head of `s`, compared via `lcEq ci`? -/
def headEq (ci : Bool) : List Char → List Char → Bool
  | [], _ => true
  | _ :: _, [] => false
  | a :: as, b :: bs => lcEq ci a b && headEq ci as bs

/-- Length of the match of the regex `https?://<domain>/?` at the head of `s`
(`none` when it does not match there).  The greedy `s?` of `https?` prefers the
long scheme and the greedy `/?` prefers to take a trailing slash, so the match
length is determined as below. -/
def matchLen (domain : List Char) (ci : Bool) (s : List Char) : Option Nat :=
  let long := "https://".data ++ domain
  let short := "http://".data ++ domain
  if headEq ci long s then
    some (if (s.drop long.length).head? = some '/' then long.length + 1 else long.length)
  else if headEq ci short s then
    some (if (s.drop short.length).head? = some '/' then short.length + 1 else short.length)
  else
    none

/-- Fuelled worker for `subAll`: remove every non-overlapping occurrence of the
scheme+domain pattern, scanning left to right.  Each step consumes at least one
character, so fuel `l.length` is always sufficient. -/
def subAllF (domain : List Char) (ci : Bool) : Nat → List Char → List Char
  | 0, l => l
  | _ + 1, [] => []
  | fuel + 1, c :: rest =>
    match matchLen domain ci (c :: rest) with
    | some n => subAllF domain ci fuel (List.drop (n - 1) rest)
    | none => c :: subAllF domain ci fuel rest

/-- Embedding of `re.sub(rf"https?://{re.escape(domain)}/?", "", s, flags)`:
every occurrence of the pattern anywhere in `s` is removed. -/
def subAll (domain : List Char) (ci : Bool) (l : List Char) : List Char :=
  subAllF domain ci l.length l

/-- The strip step of `build_regex` (line 53 of the source): trim whitespace,
then delete every occurrence of `https?://<domain>/?`.  `cs` is the
`case_sensitive` flag, so the deletion is case-insensitive when `cs` is
false. -/
def stripDomain (domain : String) (cs : Bool) (url : String) : List Char :=
  subAll domain.data (!cs) (pyStrip url.data)

/-- Embedding of `s.replace("/", "\\/")`: escape every slash. -/
def escSlashes : List Char → List Char
  | [] => []
  | '/' :: rest => '\\' :: '/' :: escSlashes rest
  | c :: rest => c :: escSlashes rest

/-- Lines 53-56 of the source: strip the domain, prepend `/` when the result
does not already start with one, then escape all slashes. -/
def strip_url (domain : String) (cs : Bool) (url : String) : List Char :=
  let stripped := stripDomain domain cs url
  let withSlash := if stripped.head? = some '/' then stripped else '/' :: stripped
  escSlashes withSlash

/-- Lines 62-65 of the source: prepend `^` unless `wild_start`, append `$`
unless `wild_end`. -/
def anchor (ws we : Bool) (p : List Char) : List Char :=
  let p1 := if ws then p else '^' :: p
  if we then p1 else p1 ++ ['$']

/-- Embedding of Python `pattern.split("/")`. -/
def splitOnSlash : List Char → List (List Char)
  | [] => [[]]
  | '/' :: rest => [] :: splitOnSlash rest
  | c :: rest =>
    match splitOnSlash rest with
    | [] => [[c]]
    | g :: gs => (c :: g) :: gs

/-- Line 18 of the source, `pattern.split("/")[1]`: the grouping key of a
pattern, `none` when the indexing would raise `IndexError`. -/
def keyOf (p : List Char) : Option (List Char) :=
  (splitOnSlash p).get? 1

/-- One `prefix_dict[prefix].append(pattern)` step on an insertion-ordered
association list (Python dicts preserve insertion order). -/
def insertPat (k p : List Char) :
    List (List Char × List (List Char)) → List (List Char × List (List Char))
  | [] => [(k, [p])]
  | (k', ps) :: rest =>
    if k' = k then (k', ps ++ [p]) :: rest else (k', ps) :: insertPat k p rest

/-- Lines 16-19 of the source: group the patterns by `keyOf`, preserving the
order in which keys are first seen and the input order inside each group;
`none` when some pattern has no key. -/
def groupPats : List (List Char) →
    List (List Char × List (List Char)) → Option (List (List Char × List (List Char)))
  | [], acc => some acc
  | p :: rest, acc =>
    match keyOf p with
    | none => none
    | some k => groupPats rest (insertPat k p acc)

/-- Join a list of character lists with `"|"`, Python `"|".join`. -/
def joinBar : List (List Char) → List Char
  | [] => []
  | [p] => p
  | p :: rest => p ++ '|' :: joinBar rest

/-- Lines 22-29 of the source, the emission of one group: a single path is
emitted unchanged (`paths[0]`), two or more paths are emitted as
`"^\\/" + prefix + "(" + "|".join(p[len(prefix)+1:] for p in paths) + ")$"`.
`none` models the `IndexError` of `paths[0]` on an empty group (which never
arises from `groupPats`). -/
def emitGroup (k : List Char) : List (List Char) → Option (List Char)
  | [] => none
  | [p] => some p
  | ps =>
    some ("^\\/".data ++ k ++ '(' :: joinBar (ps.map (fun p => p.drop (k.length + 1))) ++ [')', '$'])

/-- Map an option-valued function over a list, failing when any element
fails. -/
def mapOpt (f : α → Option β) : List α → Option (List β)
  | [] => some []
  | a :: l =>
    match f a, mapOpt f l with
    | some b, some bs => some (b :: bs)
    | _, _ => none

/-- Embedding of `optimize_regex` (lines 5-31 of the source), on patterns as
character lists.  Returns `none` exactly when the Python function raises. -/
def optimize_regex (patterns : List (List Char)) : Option (List Char) :=
  (groupPats patterns []).bind fun gs =>
    (mapOpt (fun g => emitGroup g.1 g.2) gs).map joinBar

/-- Embedding of `build_regex` (lines 34-73 of the source). -/
def build_regex (urls : List String) (domain : String)
    (wild_start wild_end case_sensitive negative_match : Bool) : Option String :=
  let stripped_paths := urls.map (fun url => strip_url domain case_sensitive url)
  let regex_parts := stripped_paths.map (fun p => anchor wild_start wild_end p)
  (optimize_regex regex_parts).map (fun base =>
    if negative_match then "^(?!" ++ String.mk base ++ ").*$" else String.mk base)

/-!
Executable semantics for the regex fragment that `optimize_regex` emits:
literal characters, backslash escapes, `.`, grouping parentheses, alternation
`|`, and the anchors `^` (start of string) and `$` (end of string).  This is
the standard textbook semantics, which agrees with Python `re` on this
star-free fragment (no `MULTILINE`, inputs without trailing newline).
-/

/-- Abstract syntax of the emitted regex fragment. -/
inductive RE where
  | eps : RE
  | lit : Char → RE
  | dot : RE
  | caret : RE
  | dollar : RE
  | seq : RE → RE → RE
  | alt : RE → RE → RE
  | grp : RE → RE
deriving DecidableEq, Repr

/-- All end positions of a match of `r` that starts at position `i` of `s`. -/
def reRun (s : List Char) : RE → Nat → List Nat
  | RE.eps, i => [i]
  | RE.lit c, i => if s.get? i = some c then [i + 1] else []
  | RE.dot, i => if i < s.length then [i + 1] else []
  | RE.caret, i => if i = 0 then [i] else []
  | RE.dollar, i => if i = s.length then [i] else []
  | RE.seq r1 r2, i => (reRun s r1 i).flatMap (fun j => reRun s r2 j)
  | RE.alt r1 r2, i => reRun s r1 i ++ reRun s r2 i
  | RE.grp r, i => reRun s r i

/-- Python `re.search` semantics: does `r` match starting at some position of
`s`? -/
def reSearch (r : RE) (s : List Char) : Bool :=
  (List.range (s.length + 1)).any (fun i => !(reRun s r i).isEmpty)

/-- Fold a list of alternatives into one `RE`. -/
def mkAlt : List RE → RE
  | [] => RE.eps
  | [r] => r
  | r :: rest => RE.alt r (mkAlt rest)

/-- Fold a list of consecutive atoms into one `RE`. -/
def mkSeq : List RE → RE
  | [] => RE.eps
  | [r] => r
  | r :: rest => RE.seq r (mkSeq rest)

/-- Fuelled recursive-descent parser of the emitted regex fragment.  The state
is a stack of suspended enclosing groups, the list of completed alternatives of
the current level, and the current sequence of atoms in reverse order.  Every
step consumes at least one character, so fuel `input.length + 1` always
suffices.  Unsupported metacharacters make the parse fail. -/
def parseLoop : Nat → List (List RE × List RE) → List RE → List RE →
    List Char → Option RE
  | 0, _, _, _, _ => none
  | _ + 1, [], alts, cur, [] => some (mkAlt (alts ++ [mkSeq cur.reverse]))
  | _ + 1, _ :: _, _, _, [] => none
  | fuel + 1, stack, alts, cur, '\\' :: c :: rest =>
    parseLoop fuel stack alts (RE.lit c :: cur) rest
  | _ + 1, _, _, _, ['\\'] => none
  | fuel + 1, stack, alts, cur, '|' :: rest =>
    parseLoop fuel stack (alts ++ [mkSeq cur.reverse]) [] rest
  | fuel + 1, stack, alts, cur, '(' :: rest =>
    parseLoop fuel ((alts, cur) :: stack) [] [] rest
  | fuel + 1, stack, alts, cur, ')' :: rest =>
    match stack with
    | [] => none
    | (alts', cur') :: stack' =>
      parseLoop fuel stack' alts' (RE.grp (mkAlt (alts ++ [mkSeq cur.reverse])) :: cur') rest
  | fuel + 1, stack, alts, cur, '^' :: rest =>
    parseLoop fuel stack alts (RE.caret :: cur) rest
  | fuel + 1, stack, alts, cur, '$' :: rest =>
    parseLoop fuel stack alts (RE.dollar :: cur) rest
  | fuel + 1, stack, alts, cur, '.' :: rest =>
    parseLoop fuel stack alts (RE.dot :: cur) rest
  | fuel + 1, stack, alts, cur, c :: rest =>
    if c = '*' || c = '+' || c = '?' || c = '[' || c = ']' ||
        c = Char.ofNat 123 || c = Char.ofNat 125 then
      none
    else
      parseLoop fuel stack alts (RE.lit c :: cur) rest

/-- Parse a pattern of the emitted regex fragment. -/
def parseRE (pat : List Char) : Option RE :=
  parseLoop (pat.length + 1) [] [] [] pat

/-- Denotation of a pattern string: `some true`/`some false` when the pattern
parses and does / does not match somewhere in `s`, `none` when the pattern is
outside the modelled fragment. -/
def reMatches (pat s : List Char) : Option Bool :=
  (parseRE pat).map (fun r => reSearch r s)

/-- The standard regex metacharacter set named by the spec:
`. ^ $ * + ? ( ) [ ] { } | \`. -/
def isMeta (c : Char) : Bool :=
  c = '.' || c = '^' || c = '$' || c = '*' || c = '+' || c = '?' ||
  c = '(' || c = ')' || c = '[' || c = ']' ||
  c = Char.ofNat 123 || c = Char.ofNat 125 || c = '|' || c = '\\'

/-- Does every metacharacter of the text occur escaped, that is, immediately
after a backslash that is not itself escaped? -/
def allMetaEscaped : List Char → Bool
  | [] => true
  | '\\' :: _ :: rest => allMetaEscaped rest
  | c :: rest => if isMeta c then false else allMetaEscaped rest

/-- Modelled from the spec: remove the shared leading group key from a member
(the suffix of the member past the key when the key is a leading piece of the
member, the member itself otherwise, keeping the operation total). -/
def claimedDropShared (k m : List Char) : List Char :=
  if k.isPrefixOf m then m.drop k.length else m

/-- Modelled from the spec (section 4.2): one member is emitted unchanged, two
or more members are emitted as the shared key followed by the parenthesised
alternation of the members with the key removed, with no extra anchors. -/
def claimedEmit (k : List Char) : List (List Char) → Option (List Char)
  | [] => none
  | [p] => some p
  | ps => some (k ++ '(' :: joinBar (ps.map (fun p => claimedDropShared k p)) ++ [')'])

/-- Modelled from the spec: the optimizer as the spec describes its emission,
using the same grouping as the code. -/
def claimedOptimize (patterns : List (List Char)) : Option (List Char) :=
  (groupPats patterns []).bind fun gs =>
    (mapOpt (fun g => claimedEmit g.1 g.2) gs).map joinBar

/-- Deduplicate a list keeping the first occurrence of each element. -/
def firstSeen : List (List Char) → List (List Char)
  | [] => []
  | k :: rest => k :: (firstSeen rest).filter (fun x => x ≠ k)

/-- The grouping described by the spec: the keys in the order each was first
seen, each paired with the patterns carrying that key in input order. -/
def gsOf (ps : List (List Char)) : List (List Char × List (List Char)) :=
  (firstSeen (ps.filterMap keyOf)).map
    (fun k => (k, ps.filter (fun p => keyOf p = some k)))

/-! Claim theorems. -/

/-- Membership in the first-seen deduplication is plain membership. -/
theorem mem_firstSeen (x : List Char) : ∀ (l : List (List Char)),
    x ∈ firstSeen l ↔ x ∈ l := by
  intro l
  induction l with
  | nil => simp [firstSeen]
  | cons k rest ih =>
    simp only [firstSeen, List.mem_cons, List.mem_filter, decide_eq_true_eq, ih]
    by_cases hx : x = k <;> simp [hx]

/-- The first-seen deduplication has no duplicates. -/
theorem nodup_firstSeen : ∀ (l : List (List Char)), (firstSeen l).Nodup := by
  intro l
  induction l with
  | nil => simp [firstSeen]
  | cons k rest ih =>
    simp only [firstSeen]
    rw [List.nodup_cons]
    constructor
    · intro hmem
      have := (List.mem_filter.mp hmem).2
      simp at this
    · exact List.Nodup.filter _ ih

/-- Appending one element to the input of `firstSeen` appends it to the output
exactly when it is new. -/
theorem firstSeen_snoc (l : List (List Char)) (k : List Char) :
    firstSeen (l ++ [k]) = if k ∈ l then firstSeen l else firstSeen l ++ [k] := by
  induction l with
  | nil => simp [firstSeen]
  | cons a l ih =>
    simp only [List.cons_append, firstSeen]
    simp only [List.append_eq]
    by_cases hk : k ∈ l
    · simp only [List.mem_cons, hk, or_true, if_true]
      rw [ih, if_pos hk]
    · by_cases hak : k = a
      · subst hak
        simp only [List.mem_cons, true_or, if_true]
        rw [ih, if_neg hk, List.filter_append]
        simp
      · have hmem : k ∉ a :: l := by
          simp only [List.mem_cons, not_or]
          exact ⟨hak, hk⟩
        rw [if_neg hmem, ih, if_neg hk, List.filter_append]
        simp [hak]

/-- Inserting into an association list whose keys are distinct and whose
entries are generated by a key function. -/
theorem insertPat_map (k p : List Char) :
    ∀ (keys : List (List Char)) (g : List Char → List (List Char)), keys.Nodup →
      insertPat k p (keys.map (fun x => (x, g x)))
        = if k ∈ keys
          then keys.map (fun x => (x, if x = k then g x ++ [p] else g x))
          else keys.map (fun x => (x, g x)) ++ [(k, [p])] := by
  intro keys
  induction keys with
  | nil => intro g _; simp [insertPat]
  | cons a keys ih =>
    intro g hnd
    rw [List.nodup_cons] at hnd
    obtain ⟨ha, hnd'⟩ := hnd
    simp only [List.map_cons, insertPat]
    by_cases hak : a = k
    · subst hak
      rw [if_pos rfl, if_pos (List.mem_cons_self a keys), if_pos rfl]
      congr 1
      apply List.map_congr_left
      intro x hx
      have hxa : ¬ x = a := fun e => ha (e ▸ hx)
      simp [hxa]
    · rw [if_neg hak, ih g hnd']
      by_cases hk : k ∈ keys
      · rw [if_pos hk, if_pos (List.mem_cons_of_mem a hk), if_neg hak]
      · have hmem : k ∉ a :: keys := by
          simp only [List.mem_cons, not_or]
          exact ⟨fun e => hak e.symm, hk⟩
        rw [if_neg hk, if_neg hmem]
        simp

/-- Processing one more pattern turns the spec-side grouping of the input so
far into the spec-side grouping of the extended input. -/
theorem gsOf_snoc (ps : List (List Char)) (p k : List Char) (hk : keyOf p = some k) :
    gsOf (ps ++ [p]) = insertPat k p (gsOf ps) := by
  unfold gsOf
  have hfm : (ps ++ [p]).filterMap keyOf = ps.filterMap keyOf ++ [k] := by
    rw [List.filterMap_append]
    simp [hk]
  rw [hfm, firstSeen_snoc]
  rw [insertPat_map k p (firstSeen (ps.filterMap keyOf)) _ (nodup_firstSeen _)]
  have hcond : k ∈ firstSeen (ps.filterMap keyOf) ↔ k ∈ ps.filterMap keyOf :=
    mem_firstSeen k _
  by_cases hkin : k ∈ ps.filterMap keyOf
  · rw [if_pos hkin, if_pos (hcond.mpr hkin)]
    apply List.map_congr_left
    intro x hx
    rw [List.filter_append]
    by_cases hxk : x = k
    · subst hxk
      simp [hk]
    · have hnp : ¬ (keyOf p = some x) := by
        rw [hk]
        intro e
        exact hxk (Option.some.inj e).symm
      simp [hxk, hnp]
  · rw [if_neg hkin, if_neg (fun hmem => hkin (hcond.mp hmem)), List.map_append]
    congr 1
    · apply List.map_congr_left
      intro x hx
      have hxk : ¬ (keyOf p = some x) := by
        rw [hk]
        intro e
        refine hkin ?_
        rw [Option.some.inj e]
        exact (mem_firstSeen x _).mp hx
      rw [List.filter_append]
      simp [hxk]
    · simp only [List.map_cons, List.map_nil]
      rw [List.filter_append]
      have hfil : ps.filter (fun q => keyOf q = some k) = [] := by
        rw [List.filter_eq_nil_iff]
        intro q hq hqk
        simp only [decide_eq_true_eq] at hqk
        exact hkin (List.mem_filterMap.mpr ⟨q, hq, hqk⟩)
      rw [hfil]
      simp [hk]

/-- When every pattern has a key, `groupPats` computes the spec-side
grouping. -/
theorem groupPats_gsOf : ∀ (ps seen : List (List Char)),
    (∀ p ∈ ps, (keyOf p).isSome) →
    groupPats ps (gsOf seen) = some (gsOf (seen ++ ps)) := by
  intro ps
  induction ps with
  | nil => intro seen _; simp [groupPats]
  | cons p rest ih =>
    intro seen h
    obtain ⟨k, hk⟩ := Option.isSome_iff_exists.mp (h p (List.mem_cons_self p rest))
    simp only [groupPats, hk]
    rw [← gsOf_snoc seen p k hk,
      ih (seen ++ [p]) (fun q hq => h q (List.mem_cons_of_mem _ hq))]
    simp

/-- A successful `groupPats` run means every pattern had a key. -/
theorem groupPats_keys : ∀ (ps : List (List Char)) acc gs,
    groupPats ps acc = some gs → ∀ p ∈ ps, (keyOf p).isSome := by
  intro ps
  induction ps with
  | nil => intro acc gs _ p hp; simp at hp
  | cons q rest ih =>
    intro acc gs h p hp
    simp only [groupPats] at h
    cases hq : keyOf q with
    | none => rw [hq] at h; simp at h
    | some k =>
      rw [hq] at h
      rcases List.mem_cons.mp hp with hpq | hpr
      · rw [hpq, hq]; rfl
      · exact ih (insertPat k q acc) gs h p hpr

/-- Claim C9: when `groupPats` (the grouping pass of `optimize_regex`)
succeeds, the groups appear in the order each group's key was first seen in
the input, each group holds exactly the input patterns carrying its key in
input order, and every input pattern belongs to exactly one group. -/
theorem grouping_insertion_order (ps : List (List Char))
    (gs : List (List Char × List (List Char)))
    (h : groupPats ps [] = some gs) :
    gs.map Prod.fst = firstSeen (ps.filterMap keyOf)
    ∧ (∀ kg ∈ gs, kg.2 = ps.filter (fun p => keyOf p = some kg.1))
    ∧ (∀ p ∈ ps, ∃ kg ∈ gs, p ∈ kg.2 ∧ ∀ kg' ∈ gs, p ∈ kg'.2 → kg' = kg) := by
  have hkeys := groupPats_keys ps [] gs h
  have h1 : groupPats ps [] = some (gsOf ps) := by
    have h2 := groupPats_gsOf ps [] hkeys
    have h0 : gsOf [] = ([] : List (List Char × List (List Char))) := rfl
    rw [h0] at h2
    simpa using h2
  rw [h1, Option.some.injEq] at h
  subst h
  refine ⟨?_, ?_, ?_⟩
  · simp only [gsOf, List.map_map]
    have : (Prod.fst ∘ fun k => (k, ps.filter (fun p => keyOf p = some k)))
        = fun k : List Char => k := rfl
    rw [this]
    exact List.map_id _
  · intro kg hkg
    simp only [gsOf, List.mem_map] at hkg
    obtain ⟨x, hx, rfl⟩ := hkg
    rfl
  · intro p hp
    obtain ⟨kp, hkp⟩ := Option.isSome_iff_exists.mp (hkeys p hp)
    have hkmem : kp ∈ ps.filterMap keyOf := List.mem_filterMap.mpr ⟨p, hp, hkp⟩
    have hkfs : kp ∈ firstSeen (ps.filterMap keyOf) := (mem_firstSeen kp _).mpr hkmem
    refine ⟨(kp, ps.filter (fun q => keyOf q = some kp)), ?_, ?_, ?_⟩
    · simp only [gsOf, List.mem_map]
      exact ⟨kp, hkfs, rfl⟩
    · simp [List.mem_filter, hp, hkp]
    · intro kg' hkg' hpkg'
      simp only [gsOf, List.mem_map] at hkg'
      obtain ⟨x, hx, rfl⟩ := hkg'
      have hpx := (List.mem_filter.mp hpkg').2
      simp only [decide_eq_true_eq] at hpx
      have hxkp : x = kp := by
        rw [hkp] at hpx
        exact (Option.some.inj hpx).symm
      rw [hxkp]

/-- Concrete input for the claim C9 witness: three path fragments, the first
and third sharing the key `a`. -/
def c9ps : List (List Char) := ["/a/x".data, "/b/y".data, "/a/z".data]

/-- The grouping `groupPats` computes on `c9ps`. -/
def c9gs : List (List Char × List (List Char)) :=
  [(['a'], ["/a/x".data, "/a/z".data]), (['b'], ["/b/y".data])]

/-- Witness for claim C9, at the concrete input `c9ps`. -/
theorem grouping_insertion_order_witness :
    c9gs.map Prod.fst = firstSeen (c9ps.filterMap keyOf)
    ∧ (∀ kg ∈ c9gs, kg.2 = c9ps.filter (fun p => keyOf p = some kg.1))
    ∧ (∀ p ∈ c9ps, ∃ kg ∈ c9gs, p ∈ kg.2 ∧ ∀ kg' ∈ c9gs, p ∈ kg'.2 → kg' = kg) :=
  grouping_insertion_order c9ps c9gs (by decide)

/-- Claim C1: the spec requires every regex metacharacter of the stripped path
to appear escaped in the produced fragment, and the code does not do this: the
fragment built for the literal path `/a.b(c)` keeps `.`, `(` and `)` unescaped
(only `/` is rewritten to an escaped slash). -/
theorem metachars_left_unescaped :
    strip_url "example.com" true "https://example.com/a.b(c)" = "\\/a.b(c)".data
    ∧ allMetaEscaped "\\/a.b(c)".data = false := by
  decide

/-- Claim C2: the optimized pattern does not denote the same language as the
plain bar-join of the fragments.  On the normalized fragments `^\/a$`, `^\/a$`
the plain alternation `^\/a$|^\/a$` matches the string `/a`, while the
optimized pattern `^\/a$(a$|a$)$` produced by `optimize_regex` does not match
it (the group is appended after the end anchor, so it can match nothing). -/
theorem optimize_changes_language :
    joinBar ["^\\/a$".data, "^\\/a$".data] = "^\\/a$|^\\/a$".data
    ∧ optimize_regex ["^\\/a$".data, "^\\/a$".data] = some "^\\/a$(a$|a$)$".data
    ∧ reMatches "^\\/a$|^\\/a$".data "/a".data = some true
    ∧ reMatches "^\\/a$(a$|a$)$".data "/a".data = some false := by
  decide

/-- Claim C3: on the two-member group of fragments `^\/a\/b$`, `^\/a\/c$`
(shared key `a\`), the code does not emit the spec-described
`<prefix>(<member minus prefix>|...)`: it emits
`^\/a\(a\/b$|a\/c$)$`, re-wrapping the group in hard-coded anchors and using
suffixes that drop a fixed number of characters rather than the shared
prefix, while the spec-described emission is `a\(^\/a\/b$|^\/a\/c$)`. -/
theorem emission_differs_from_spec :
    optimize_regex ["^\\/a\\/b$".data, "^\\/a\\/c$".data]
      = some "^\\/a\\(a\\/b$|a\\/c$)$".data
    ∧ claimedOptimize ["^\\/a\\/b$".data, "^\\/a\\/c$".data]
      = some "a\\(^\\/a\\/b$|^\\/a\\/c$)".data
    ∧ ("^\\/a\\(a\\/b$|a\\/c$)$".data : List Char)
      ≠ "a\\(^\\/a\\/b$|^\\/a\\/c$)".data := by
  decide

/-- Claim C5: a fragment that contains no `/` is not handled totally:
`optimize_regex` fails on it (the Python code raises `IndexError` at
`pattern.split("/")[1]`) instead of degrading to a singleton group. -/
theorem no_slash_fragment_raises :
    optimize_regex ["abc".data] = none := by
  decide

/-- Claim C6, counterexample: on an empty url list with `negative_match`
false, `build_regex` returns the empty string, not the degenerate `^$`
announced by the spec. -/
theorem empty_urls_counterexample :
    build_regex [] "example.com" false false true false = some ""
    ∧ ("" : String) ≠ "^$" := by
  decide

/-- Claim C6, amended: an empty url list produces the empty string when
`negative_match` is false and `^(?!).*$` when it is true, for every domain and
flag combination. -/
theorem empty_urls_output (domain : String) (ws we cs : Bool) :
    build_regex [] domain ws we cs false = some ""
    ∧ build_regex [] domain ws we cs true = some "^(?!).*$" :=
  ⟨rfl, rfl⟩

/-- Claim C8: with `negative_match` true the result is exactly the
`negative_match`-false result wrapped as `^(?!...).*$`, and with
`negative_match` false it is the base pattern itself (stated as an equality of
the two option-valued runs). -/
theorem negative_wrap (urls : List String) (domain : String) (ws we cs : Bool) :
    build_regex urls domain ws we cs true
      = (build_regex urls domain ws we cs false).map (fun b => "^(?!" ++ b ++ ").*$") := by
  simp only [build_regex]
  cases optimize_regex
      ((urls.map fun url => strip_url domain cs url).map fun p => anchor ws we p) <;>
    simp

/-- Claim C10: every stripped path produced by `build_regex` begins with the
escaped slash `\/` (a slash is prepended whenever the stripped string does not
already start with one, and every slash is then escaped), so every fragment
contains a `/` character. -/
theorem fragment_starts_escaped_slash (domain : String) (cs : Bool) (url : String) :
    (strip_url domain cs url).take 2 = ['\\', '/']
    ∧ '/' ∈ strip_url domain cs url := by
  unfold strip_url
  by_cases h : (stripDomain domain cs url).head? = some '/'
  · simp only [h, if_pos]
    cases hs : stripDomain domain cs url with
    | nil => rw [hs] at h; simp at h
    | cons c t =>
      rw [hs] at h
      simp only [List.head?] at h
      cases h
      simp [escSlashes]
  · simp only [h, if_neg]
    simp [escSlashes]

/-- Claim C4, counterexample: the strip step is a global `re.sub`, so the
scheme+domain prefix is removed even when it occurs in the middle of the URL;
the URL `a/http://example.com/b` does not start with the prefix yet is not
passed through unchanged. -/
theorem strip_removes_midstring :
    stripDomain "example.com" true "a/http://example.com/b" = "a/b".data
    ∧ ("a/b".data : List Char) ≠ "a/http://example.com/b".data := by
  decide

/-- Helper for claim C4: the fuelled substitution worker is the identity when
the scheme+domain pattern matches at no offset of the input. -/
theorem subAllF_noop (domain : List Char) (ci : Bool) :
    ∀ (fuel : Nat) (l : List Char),
      (∀ i < l.length, matchLen domain ci (l.drop i) = none) →
      subAllF domain ci fuel l = l := by
  intro fuel
  induction fuel with
  | zero => intro l _; rfl
  | succ n ih =>
    intro l h
    cases l with
    | nil => rfl
    | cons c rest =>
      have h0 : matchLen domain ci (c :: rest) = none := by
        have := h 0 (by simp)
        simpa using this
      simp only [subAllF, h0]
      congr 1
      exact ih rest (fun i hi => by
        have := h (i + 1) (by simpa using Nat.succ_lt_succ hi)
        simpa using this)

/-- Claim C4, amended: the strip step removes every occurrence of
`https?://<domain>/?` anywhere in the trimmed URL, not only a leading one; a
URL in which the pattern matches at no offset is the one passed through
unchanged. -/
theorem strip_passthrough (domain : String) (cs : Bool) (url : String)
    (h : ∀ i < (pyStrip url.data).length,
      matchLen domain.data (!cs) ((pyStrip url.data).drop i) = none) :
    stripDomain domain cs url = pyStrip url.data :=
  subAllF_noop domain.data (!cs) (pyStrip url.data).length (pyStrip url.data) h

/-- Witness for the amended claim C4, at the concrete input `/xyz` with domain
`example.com`. -/
theorem strip_passthrough_witness :
    stripDomain "example.com" true "/xyz" = (pyStrip "/xyz".data) :=
  strip_passthrough "example.com" true "/xyz" (by decide)

/-- Claim C7, counterexample: with `wild_start` true (so no `^` should appear)
and two URLs sharing a grouping key, the emitted pattern nevertheless starts
with a hard-coded `^` added by the optimizer's group emission. -/
theorem group_emission_ignores_flags :
    build_regex ["/a/b", "/a/c"] "d" true false true false
      = some "^\\/a\\(\\/b$|\\/c$)$"
    ∧ ("^\\/a\\(\\/b$|\\/c$)$".data : List Char).head? = some '^' := by
  decide

/-- Claim C7, amended: each fragment entering the optimizer carries a leading
`^` iff `wild_start` is false and a trailing `$` iff `wild_end` is false; the
optimizer emits a single-member group as that fragment unchanged, but emits
every multi-member group wrapped in hard-coded `^...$` independent of the
flags. -/
theorem anchors_amended :
    (∀ (ws we : Bool) (p : List Char),
        anchor ws we p = (if ws then [] else ['^']) ++ p ++ (if we then [] else ['$']))
    ∧ (∀ (k p : List Char), emitGroup k [p] = some p)
    ∧ (∀ (k : List Char) (ms : List (List Char)) (out : List Char),
        2 ≤ ms.length → emitGroup k ms = some out →
        out.head? = some '^' ∧ out.getLast? = some '$') := by
  refine ⟨?_, ?_, ?_⟩
  · intro ws we p
    cases ws <;> cases we <;> simp [anchor]
  · intro k p
    rfl
  · intro k ms out hlen hemit
    match ms, hlen with
    | m1 :: m2 :: rest, _ =>
      have h4 : out
          = ['^', '\\', '/'] ++ k ++
            '(' :: joinBar ((m1 :: m2 :: rest).map (fun p => p.drop (k.length + 1)))
              ++ [')', '$'] := by
        simp only [emitGroup, Option.some.injEq] at hemit
        exact hemit.symm
      constructor
      · rw [h4]; rfl
      · have h5 : out
            = (['^', '\\', '/'] ++ k ++
              '(' :: joinBar ((m1 :: m2 :: rest).map (fun p => p.drop (k.length + 1)))
                ++ [')']) ++ ['$'] := by
          rw [h4]; simp
        rw [h5, List.getLast?_concat]

/-- Witness for the amended claim C7: the anchoring equation at concrete flags
and fragment, the unchanged emission of a concrete singleton group, and the
group-emission anchors at a concrete two-member group. -/
theorem anchors_amended_witness :
    (anchor true false "\\/p".data
      = (if true then [] else ['^']) ++ "\\/p".data ++ (if false then [] else ['$']))
    ∧ emitGroup ['a'] ["\\/a\\/x$".data] = some "\\/a\\/x$".data
    ∧ (("^\\/a(|)$".data : List Char).head? = some '^'
        ∧ ("^\\/a(|)$".data : List Char).getLast? = some '$') :=
  ⟨anchors_amended.1 true false "\\/p".data,
   anchors_amended.2.1 ['a'] "\\/a\\/x$".data,
   anchors_amended.2.2 ['a'] [['b'], ['c']] "^\\/a(|)$".data (by decide) (by decide)⟩

end RegexBuilder
